import Mathlib

/-!
Verification development for the internal-call tree reconstruction of the
smartbch RPC layer.

The subject program rebuilds the nested call tree of one smart-contract
transaction from two flat, execution-ordered event sequences
(`InternalTxCalls` and `InternalTxReturns`) via an explicit stack of
currently-open nodes (`buildCallStack` in `rpc/api/internal_calls_test.go`),
and projects the tree into a flattened, path-labeled record list for the
transaction-receipt API.

Embedding conventions:
- Go `int32`/`int64`/`int` fields become `Int`.  The only arithmetic the
  builder performs on them is `lastNode.depth - call.Depth` plus comparisons;
  in every regime considered by the theorems below the operands are far below
  `2^31`, so the unwrapped `Int` arithmetic agrees with Go's `int32`.
- Addresses and byte payloads are opaque data; they are carried as `Nat` and
  `List Nat`.
- A Go panic (the explicit malformed-trace `panic` as well as the
  out-of-range slice accesses `tx.InternalTxReturns[0]`, `nodes[len-1]` and
  `nodes[0]`) is modelled as `Option.none`: the function aborts and yields no
  (partial) result.
- The Go function mutates node structs through shared pointers.  The
  functional translation keeps the stack of open nodes (`nodes` in the Go
  code, top of stack last; here top of stack first) as a list of node values
  and replays each pointer write as a functional update: when a node is
  popped and resolved, the stale copy sitting in the last `Calls` slot of its
  parent (placed there at push time) is replaced by the finished value
  (`dropLast ++ [resolved]`).  For every state reachable from an empty stack
  the last `Calls` entry of a non-top frame is exactly the stale copy of the
  frame above it, so this replay coincides with the pointer semantics.
- The Go function consumes `tx.InternalTxReturns` in place (the slice header
  stored in the transaction is advanced).  The embedding makes this state
  passing explicit: `buildCallStack` returns the root node together with the
  post-state transaction.
-/

set_option linter.unusedVariables false

/-- Account address, carried opaquely (a 20-byte value in the original). -/
abbrev Address := Nat

/-- Opaque byte payload (`[]byte` / `hexutil.Bytes` in the original). -/
abbrev Bytes := List Nat

/-- Call-enter event emitted by the execution engine
(`motypes.InternalTxCall`; the type itself lives in the moeingevm
dependency).  `Depth`, `Sender`, `Destination` and `Input` are exactly the
fields read by `buildCallStack`.  `Gas` (gas available at call entry) and
`ReadOnly` (the call-kind tag: read-only versus value-mutating) are modelled
from the spec (§3, §4.2, §4.3): they are carried verbatim from the engine and
consumed only by the path labeler and the receipt projector, never by the
tree builder. -/
structure InternalTxCall where
  Depth : Int
  Sender : Address
  Destination : Address
  Input : Bytes
  Gas : Int
  ReadOnly : Bool
  deriving Repr, DecidableEq

/-- Call-return event emitted by the execution engine
(`motypes.InternalTxReturn`): output payload, status code (0 = success) and
gas remaining at return time. -/
structure InternalTxReturn where
  Output : Bytes
  StatusCode : Int
  GasLeft : Int
  deriving Repr, DecidableEq

/-- One node of the reconstructed call tree (`CallStackNode` in the Go
source): the call-enter data plus, once resolved, the return data, and the
ordered list of child calls. -/
inductive CallStackNode : Type where
  | mk (depth : Int) (From : Address) (To : Address) (Input : Bytes)
       (Output : Bytes) (StatusCode : Int) (GasLeft : Int)
       (Calls : List CallStackNode)
  deriving Repr

def CallStackNode.depth : CallStackNode → Int
  | .mk d _ _ _ _ _ _ _ => d

def CallStackNode.From : CallStackNode → Address
  | .mk _ f _ _ _ _ _ _ => f

def CallStackNode.To : CallStackNode → Address
  | .mk _ _ t _ _ _ _ _ => t

def CallStackNode.Input : CallStackNode → Bytes
  | .mk _ _ _ i _ _ _ _ => i

def CallStackNode.Output : CallStackNode → Bytes
  | .mk _ _ _ _ o _ _ _ => o

def CallStackNode.StatusCode : CallStackNode → Int
  | .mk _ _ _ _ _ s _ _ => s

def CallStackNode.GasLeft : CallStackNode → Int
  | .mk _ _ _ _ _ _ g _ => g

def CallStackNode.Calls : CallStackNode → List CallStackNode
  | .mk _ _ _ _ _ _ _ cs => cs

/-- Functional counterpart of assigning to the `Calls` field through a
pointer. -/
def CallStackNode.setCalls : CallStackNode → List CallStackNode → CallStackNode
  | .mk d f t i o s g _, cs => .mk d f t i o s g cs

/-- Resolution of an open node: the Go code assigns `Output`, `GasLeft` and
`StatusCode` from the dequeued return event
(`lastNode.Output = lastRet.Output` and the two following lines). -/
def CallStackNode.resolve : CallStackNode → InternalTxReturn → CallStackNode
  | .mk d f t i _ _ _ cs, r => .mk d f t i r.Output r.StatusCode r.GasLeft cs

/-- Node freshly created from a call event (`newNode` in the Go loop body);
the return-data fields start at Go's zero values and `Calls` starts empty. -/
def newNode (call : InternalTxCall) : CallStackNode :=
  .mk call.Depth call.Sender call.Destination call.Input [] 0 0 []

/-- One iteration of the Go pop loop (`for i := int32(0); i <= n; i++`):
dequeue the front return event, resolve the top node with it, pop it off the
stack, and re-read the new top.  The stale copy of the popped node stored in
the last `Calls` slot of the new top (see the module comment) is replaced by
the resolved value.  `none` models the Go panics: `tx.InternalTxReturns[0]`
on an empty queue, and `nodes[len(nodes)-1]` when the pop emptied the
stack. -/
def popOnce : List CallStackNode → List InternalTxReturn →
    Option (List CallStackNode × List InternalTxReturn)
  | f :: g :: rest, r :: rets =>
      some (g.setCalls (g.Calls.dropLast ++ [f.resolve r]) :: rest, rets)
  | _, _ => none

/-- The whole Go pop loop, run for a fixed number of iterations. -/
def popLoop : Nat → List CallStackNode → List InternalTxReturn →
    Option (List CallStackNode × List InternalTxReturn)
  | 0, nodes, rets => some (nodes, rets)
  | k + 1, nodes, rets =>
      match popOnce nodes rets with
      | none => none
      | some (nodes', rets') => popLoop k nodes' rets'

/-- One iteration of the main loop of `buildCallStack`, processing a single
call event against the current stack and return queue.  The three branches
mirror the Go source in order: empty stack (first call), `call.Depth ==
lastNode.depth+1` (new nested call), `call.Depth <= lastNode.depth` (pop
`lastNode.depth - call.Depth + 1` nodes, then push), and otherwise the
explicit malformed-trace `panic`. -/
def processCall (st : List CallStackNode × List InternalTxReturn)
    (call : InternalTxCall) :
    Option (List CallStackNode × List InternalTxReturn) :=
  match st with
  | ([], rets) => some ([newNode call], rets)
  | (lastNode :: rest, rets) =>
    if call.Depth = lastNode.depth + 1 then
      some (newNode call ::
              lastNode.setCalls (lastNode.Calls ++ [newNode call]) :: rest,
            rets)
    else if call.Depth ≤ lastNode.depth then
      match popLoop ((lastNode.depth - call.Depth).toNat + 1)
              (lastNode :: rest) rets with
      | none => none
      | some (top :: rest', rets') =>
          some (newNode call ::
                  top.setCalls (top.Calls ++ [newNode call]) :: rest',
                rets')
      | some ([], _) => none
    else
      none

/-- The main loop of `buildCallStack`: fold `processCall` over the call
events, aborting on the first failure. -/
def runCalls : List InternalTxCall →
    (List CallStackNode × List InternalTxReturn) →
    Option (List CallStackNode × List InternalTxReturn)
  | [], st => some st
  | c :: cs, st =>
      match processCall st c with
      | none => none
      | some st' => runCalls cs st'

/-- Inner loop of the final drain (`for len(nodes) > 0`), written so that the
recursion is structural: `f` is the current top of the stack, the first list
argument is everything below it.  Each step dequeues one return, resolves the
top, and replaces the stale copy in the new top's last `Calls` slot.  When
the last node (the original root, `node0` in the Go code) is resolved, it is
returned together with the returns left unconsumed. -/
def drainGo (f : CallStackNode) : List CallStackNode →
    List InternalTxReturn → Option (CallStackNode × List InternalTxReturn)
  | [], [] => none
  | [], r :: rets => some (f.resolve r, rets)
  | _ :: _, [] => none
  | g :: gs, r :: rets =>
      drainGo (g.setCalls (g.Calls.dropLast ++ [f.resolve r])) gs rets

/-- The final drain of `buildCallStack`.  `node0 := nodes[0]` panics when the
stack is empty (zero call events), hence `none` in that case. -/
def drain : List CallStackNode → List InternalTxReturn →
    Option (CallStackNode × List InternalTxReturn)
  | [], _ => none
  | f :: rest, rets => drainGo f rest rets

/-- The two event sequences of one transaction (the fields of
`motypes.Transaction` read and written by `buildCallStack`). -/
structure Transaction where
  InternalTxCalls : List InternalTxCall
  InternalTxReturns : List InternalTxReturn
  deriving Repr, DecidableEq

/-- The tree builder `buildCallStack`.  Given the transaction it returns the
root node of the reconstructed call tree together with the post-state
transaction (the Go function advances `tx.InternalTxReturns` in place; the
embedding returns the mutated transaction explicitly).  `none` models a
panic. -/
def buildCallStack (tx : Transaction) :
    Option (CallStackNode × Transaction) :=
  match runCalls tx.InternalTxCalls ([], tx.InternalTxReturns) with
  | none => none
  | some (nodes, rets) =>
      match drain nodes rets with
      | none => none
      | some (node0, rets') =>
          some (node0, { tx with InternalTxReturns := rets' })

example :
    buildCallStack ⟨[], []⟩ = none := rfl

example :
    buildCallStack
      ⟨[⟨0, 1, 2, [7], 100, false⟩], [⟨[9], 0, 55⟩]⟩ =
    some (.mk 0 1 2 [7] [9] 0 55 [], ⟨[⟨0, 1, 2, [7], 100, false⟩], []⟩) := rfl

/-! ## Pre-order flattening

The identity of a node — the data copied verbatim from its call event — and
the pre-order listing of those identities for a finished tree and for an
intermediate builder stack.  For a stack (top first) the pre-order prefix
built so far is: the partial pre-order of the bottom frame, then of the frame
above it, and so on; for a non-top frame the last `Calls` slot is excluded
because it holds the stale copy of the frame above it (see the module
comment). -/

/-- The per-node data copied from the call event. -/
structure CallId where
  Depth : Int
  Sender : Address
  Destination : Address
  Input : Bytes
  deriving Repr, DecidableEq

def callIdOf (c : InternalTxCall) : CallId :=
  ⟨c.Depth, c.Sender, c.Destination, c.Input⟩

def nodeIdOf : CallStackNode → CallId
  | .mk d f t i _ _ _ _ => ⟨d, f, t, i⟩

mutual

/-- Pre-order listing of the node identities of a tree. -/
def flattenTree : CallStackNode → List CallId
  | .mk d f t i _ _ _ cs => ⟨d, f, t, i⟩ :: flattenForest cs

def flattenForest : List CallStackNode → List CallId
  | [] => []
  | c :: cs => flattenTree c ++ flattenForest cs

end

/-- Partial pre-order contribution of a non-top stack frame (its last
`Calls` slot is the stale copy of the frame above it). -/
def flatNon (g : CallStackNode) : List CallId :=
  nodeIdOf g :: flattenForest g.Calls.dropLast

def flattenStackNon : List CallStackNode → List CallId
  | [] => []
  | g :: rest => flattenStackNon rest ++ flatNon g

/-- Pre-order prefix represented by a builder stack (top of stack first). -/
def flattenStack : List CallStackNode → List CallId
  | [] => []
  | f :: rest => flattenStackNon rest ++ flattenTree f

@[simp] theorem setCalls_Calls (f : CallStackNode) (cs : List CallStackNode) :
    (f.setCalls cs).Calls = cs := by
  cases f; simp [CallStackNode.setCalls, CallStackNode.Calls]

@[simp] theorem nodeIdOf_setCalls (f : CallStackNode) (cs : List CallStackNode) :
    nodeIdOf (f.setCalls cs) = nodeIdOf f := by
  cases f; simp [CallStackNode.setCalls, nodeIdOf]

@[simp] theorem newNode_Calls (c : InternalTxCall) :
    (newNode c).Calls = [] := by
  simp [newNode, CallStackNode.Calls]

@[simp] theorem nodeIdOf_newNode (c : InternalTxCall) :
    nodeIdOf (newNode c) = callIdOf c := by
  simp [newNode, nodeIdOf, callIdOf]

@[simp] theorem dropLast_append_single {α : Type} (xs : List α) (x : α) :
    (xs ++ [x]).dropLast = xs := by
  induction xs with
  | nil => rfl
  | cons a as ih => simp [List.dropLast, ih]

theorem flattenForest_append (xs ys : List CallStackNode) :
    flattenForest (xs ++ ys) = flattenForest xs ++ flattenForest ys := by
  induction xs with
  | nil => simp [flattenForest]
  | cons c cs ih => simp [flattenForest, ih]

theorem flattenTree_resolve (f : CallStackNode) (r : InternalTxReturn) :
    flattenTree (f.resolve r) = flattenTree f := by
  cases f with
  | mk d fr t i o s g cs => simp [CallStackNode.resolve, flattenTree]

theorem flattenTree_setCalls (g : CallStackNode) (cs : List CallStackNode) :
    flattenTree (g.setCalls cs) = nodeIdOf g :: flattenForest cs := by
  cases g with
  | mk d fr t i o s ga cs0 => simp [CallStackNode.setCalls, flattenTree, nodeIdOf]

theorem flattenTree_eq_flatNon_calls (f : CallStackNode) :
    flattenTree f = nodeIdOf f :: flattenForest f.Calls := by
  cases f with
  | mk d fr t i o s g cs => simp [flattenTree, nodeIdOf, CallStackNode.Calls]

theorem flattenTree_newNode (c : InternalTxCall) :
    flattenTree (newNode c) = [callIdOf c] := by
  simp [newNode, flattenTree, flattenForest, callIdOf]

/-- Replacing the stale last `Calls` slot of the new top with the resolved
popped node leaves the pre-order prefix of the stack unchanged. -/
theorem flattenStack_popStep (f g : CallStackNode) (rest : List CallStackNode)
    (r : InternalTxReturn) :
    flattenStack (g.setCalls (g.Calls.dropLast ++ [f.resolve r]) :: rest) =
      flattenStack (f :: g :: rest) := by
  simp [flattenStack, flattenStackNon, flattenTree_setCalls,
    flattenForest_append, flattenForest, flattenTree_resolve, flatNon]

/-- Pushing a new node (and appending its stale copy to the old top's
`Calls`) extends the pre-order prefix by exactly that call. -/
theorem flattenStack_push (f : CallStackNode) (rest : List CallStackNode)
    (c : InternalTxCall) :
    flattenStack (newNode c ::
        f.setCalls (f.Calls ++ [newNode c]) :: rest) =
      flattenStack (f :: rest) ++ [callIdOf c] := by
  simp [flattenStack, flattenStackNon, flatNon, flattenTree_setCalls,
    flattenTree_newNode, flattenTree_eq_flatNon_calls, flattenForest]

theorem popOnce_flatten {ns ns' : List CallStackNode}
    {rets rets' : List InternalTxReturn}
    (h : popOnce ns rets = some (ns', rets')) :
    flattenStack ns' = flattenStack ns ∧ ns'.length + 1 = ns.length ∧
      rets' = rets.drop 1 ∧ 1 ≤ rets.length := by
  match ns, rets with
  | f :: g :: rest, r :: rets =>
    simp only [popOnce, Option.some.injEq, Prod.mk.injEq] at h
    obtain ⟨h1, h2⟩ := h
    subst h1; subst h2
    refine ⟨flattenStack_popStep f g rest r, by simp, by simp, by simp⟩
  | [], _ => simp [popOnce] at h
  | [f], _ => simp [popOnce] at h
  | _ :: _ :: _, [] => simp [popOnce] at h

theorem popLoop_flatten {k : Nat} {ns ns' : List CallStackNode}
    {rets rets' : List InternalTxReturn}
    (h : popLoop k ns rets = some (ns', rets')) :
    flattenStack ns' = flattenStack ns ∧ ns'.length + k = ns.length ∧
      rets' = rets.drop k ∧ k ≤ rets.length := by
  induction k generalizing ns rets with
  | zero => simp only [popLoop, Option.some.injEq, Prod.mk.injEq] at h
            obtain ⟨h1, h2⟩ := h; subst h1; subst h2; simp
  | succ k ih =>
    simp only [popLoop] at h
    match hp : popOnce ns rets with
    | none => rw [hp] at h; simp at h
    | some (ns1, rets1) =>
      rw [hp] at h
      obtain ⟨e1, e2, e3, e4⟩ := popOnce_flatten hp
      obtain ⟨i1, i2, i3, i4⟩ := ih h
      refine ⟨by rw [i1, e1], by omega, ?_, ?_⟩
      · rw [i3, e3, List.drop_drop, Nat.add_comm]
      · subst e3; simp at i4; omega

theorem processCall_flatten {ns ns' : List CallStackNode}
    {rets rets' : List InternalTxReturn} {c : InternalTxCall}
    (h : processCall (ns, rets) c = some (ns', rets')) :
    flattenStack ns' = flattenStack ns ++ [callIdOf c] ∧
      ∃ j, j ≤ rets.length ∧ rets' = rets.drop j ∧
        ns'.length + j = ns.length + 1 := by
  match ns with
  | [] =>
    simp only [processCall, Option.some.injEq, Prod.mk.injEq] at h
    obtain ⟨h1, h2⟩ := h; subst h1; subst h2
    exact ⟨by simp [flattenStack, flattenStackNon, flattenTree_newNode],
      0, by simp, rfl, by simp⟩
  | f :: rest =>
    simp only [processCall] at h
    by_cases hd : c.Depth = f.depth + 1
    · rw [if_pos hd] at h
      simp only [Option.some.injEq, Prod.mk.injEq] at h
      obtain ⟨h1, h2⟩ := h; subst h1; subst h2
      exact ⟨flattenStack_push f rest c, 0, by simp, rfl, by simp⟩
    · rw [if_neg hd] at h
      by_cases hle : c.Depth ≤ f.depth
      · rw [if_pos hle] at h
        match hp : popLoop ((f.depth - c.Depth).toNat + 1) (f :: rest) rets with
        | none => rw [hp] at h; exact absurd h (by simp)
        | some ([], rs) => rw [hp] at h; exact absurd h (by simp)
        | some (top :: rest', rs) =>
          rw [hp] at h
          simp only [Option.some.injEq, Prod.mk.injEq] at h
          obtain ⟨h1, h2⟩ := h; subst h1; subst h2
          obtain ⟨e1, e2, e3, e4⟩ := popLoop_flatten hp
          refine ⟨?_, (f.depth - c.Depth).toNat + 1, e4, e3, ?_⟩
          · rw [flattenStack_push top rest' c, e1]
          · simp only [List.length_cons] at e2 ⊢; omega
      · rw [if_neg hle] at h; exact absurd h (by simp)

theorem runCalls_flatten {cs : List InternalTxCall}
    {ns ns' : List CallStackNode} {rets rets' : List InternalTxReturn}
    (h : runCalls cs (ns, rets) = some (ns', rets')) :
    flattenStack ns' = flattenStack ns ++ cs.map callIdOf ∧
      ∃ j, j ≤ rets.length ∧ rets' = rets.drop j ∧
        ns'.length + j = ns.length + cs.length := by
  induction cs generalizing ns rets with
  | nil =>
    simp only [runCalls, Option.some.injEq, Prod.mk.injEq] at h
    obtain ⟨h1, h2⟩ := h; subst h1; subst h2
    exact ⟨by simp, 0, by simp, rfl, by simp⟩
  | cons c cs ih =>
    simp only [runCalls] at h
    match hp : processCall (ns, rets) c with
    | none => rw [hp] at h; exact absurd h (by simp)
    | some (ns1, rets1) =>
      rw [hp] at h
      obtain ⟨e1, j1, hj1, e3, e4⟩ := processCall_flatten hp
      obtain ⟨i1, j2, hj2, i3, i4⟩ := ih h
      refine ⟨by rw [i1, e1]; simp, j1 + j2, ?_, ?_, ?_⟩
      · subst e3; simp only [List.length_drop] at hj2; omega
      · rw [i3, e3, List.drop_drop, Nat.add_comm]
      · simp only [List.length_cons] at e4 i4 ⊢; omega

theorem drainGo_flatten {f t : CallStackNode} {gs : List CallStackNode}
    {rets rets' : List InternalTxReturn}
    (h : drainGo f gs rets = some (t, rets')) :
    flattenTree t = flattenStack (f :: gs) ∧
      rets' = rets.drop (gs.length + 1) ∧ gs.length + 1 ≤ rets.length := by
  induction gs generalizing f rets with
  | nil =>
    match rets with
    | [] => simp [drainGo] at h
    | r :: rs =>
      simp only [drainGo, Option.some.injEq, Prod.mk.injEq] at h
      obtain ⟨h1, h2⟩ := h; subst h1; subst h2
      exact ⟨by simp [flattenStack, flattenStackNon, flattenTree_resolve],
        by simp, by simp⟩
  | cons g gs ih =>
    match rets with
    | [] => simp [drainGo] at h
    | r :: rs =>
      simp only [drainGo] at h
      obtain ⟨i1, i2, i3⟩ := ih h
      refine ⟨?_, ?_, ?_⟩
      · rw [i1]; exact flattenStack_popStep f g gs r
      · simpa using i2
      · simp only [List.length_cons] at i3 ⊢; omega

theorem drain_flatten {t : CallStackNode} {ns : List CallStackNode}
    {rets rets' : List InternalTxReturn}
    (h : drain ns rets = some (t, rets')) :
    ns ≠ [] ∧ flattenTree t = flattenStack ns ∧
      rets' = rets.drop ns.length ∧ ns.length ≤ rets.length := by
  match ns with
  | [] => simp [drain] at h
  | f :: rest =>
    simp only [drain] at h
    obtain ⟨i1, i2, i3⟩ := drainGo_flatten h
    exact ⟨by simp, i1, by simpa using i2, by simpa using i3⟩

/-- Core correctness of a successful builder run: the pre-order identity
listing of the resulting tree is exactly the call-event sequence, the
post-state return queue is the input queue with its first `len(calls)`
elements consumed, and the call sequence is untouched. -/
theorem buildCallStack_flatten {tx tx' : Transaction} {t : CallStackNode}
    (h : buildCallStack tx = some (t, tx')) :
    flattenTree t = tx.InternalTxCalls.map callIdOf ∧
      tx'.InternalTxReturns =
        tx.InternalTxReturns.drop tx.InternalTxCalls.length ∧
      tx.InternalTxCalls.length ≤ tx.InternalTxReturns.length ∧
      tx'.InternalTxCalls = tx.InternalTxCalls := by
  simp only [buildCallStack] at h
  split at h
  · exact absurd h (by simp)
  next ns rets hr =>
    split at h
    · exact absurd h (by simp)
    next node0 rets2 hd =>
      simp only [Option.some.injEq, Prod.mk.injEq] at h
      obtain ⟨h1, h2⟩ := h; subst h1; subst h2
      obtain ⟨r1, j, hj, r3, r4⟩ := runCalls_flatten hr
      obtain ⟨d0, d1, d2, d3⟩ := drain_flatten hd
      have hlen : j + ns.length = tx.InternalTxCalls.length := by
        simp only [List.length_nil] at r4; omega
      refine ⟨?_, ?_, ?_, rfl⟩
      · rw [d1, r1]; simp [flattenStack]
      · rw [d2, r3, List.drop_drop]
        show List.drop (j + ns.length) tx.InternalTxReturns =
          List.drop tx.InternalTxCalls.length tx.InternalTxReturns
        rw [hlen]
      · subst r3; simp only [List.length_drop] at d3; omega

/-! ## Node counting and the parent-child depth law -/

mutual

/-- Number of nodes in a call tree. -/
def countTree : CallStackNode → Nat
  | .mk _ _ _ _ _ _ _ cs => 1 + countForest cs

def countForest : List CallStackNode → Nat
  | [] => 0
  | c :: cs => countTree c + countForest cs

end

mutual

theorem countTree_flatten (t : CallStackNode) :
    countTree t = (flattenTree t).length := by
  match t with
  | .mk d f u i o s g cs =>
      simp [countTree, flattenTree, countForest_flatten cs, Nat.add_comm]

theorem countForest_flatten (cs : List CallStackNode) :
    countForest cs = (flattenForest cs).length := by
  match cs with
  | [] => simp [countForest, flattenForest]
  | c :: cs =>
      simp [countForest, flattenForest, countTree_flatten c,
        countForest_flatten cs]

end

mutual

/-- Check that inside a tree every child's depth equals its parent's depth
plus one. -/
def depthsOk : CallStackNode → Bool
  | .mk d _ _ _ _ _ _ cs => depthsOkList d cs

def depthsOkList : Int → List CallStackNode → Bool
  | _, [] => true
  | d, c :: cs => (c.depth == d + 1) && depthsOk c && depthsOkList d cs

end

@[simp] theorem depth_setCalls (f : CallStackNode) (cs : List CallStackNode) :
    (f.setCalls cs).depth = f.depth := by
  cases f; simp [CallStackNode.setCalls, CallStackNode.depth]

@[simp] theorem depth_resolve (f : CallStackNode) (r : InternalTxReturn) :
    (f.resolve r).depth = f.depth := by
  cases f; simp [CallStackNode.resolve, CallStackNode.depth]

@[simp] theorem depth_newNode (c : InternalTxCall) :
    (newNode c).depth = c.Depth := by
  simp [newNode, CallStackNode.depth]

@[simp] theorem resolve_Calls (f : CallStackNode) (r : InternalTxReturn) :
    (f.resolve r).Calls = f.Calls := by
  cases f; simp [CallStackNode.resolve, CallStackNode.Calls]

theorem depthsOk_def (f : CallStackNode) :
    depthsOk f = depthsOkList f.depth f.Calls := by
  cases f; simp [depthsOk, CallStackNode.depth, CallStackNode.Calls]

@[simp] theorem depthsOk_setCalls (f : CallStackNode) (cs : List CallStackNode) :
    depthsOk (f.setCalls cs) = depthsOkList f.depth cs := by
  cases f; simp [depthsOk, CallStackNode.setCalls, CallStackNode.depth]

@[simp] theorem depthsOk_resolve (f : CallStackNode) (r : InternalTxReturn) :
    depthsOk (f.resolve r) = depthsOk f := by
  cases f; simp [depthsOk, CallStackNode.resolve]

@[simp] theorem depthsOk_newNode (c : InternalTxCall) :
    depthsOk (newNode c) = true := by
  simp [newNode, depthsOk, depthsOkList]

theorem depthsOkList_append (d : Int) (xs ys : List CallStackNode) :
    depthsOkList d (xs ++ ys) = true ↔
      (depthsOkList d xs = true ∧ depthsOkList d ys = true) := by
  induction xs with
  | nil => simp [depthsOkList]
  | cons c cs ih => simp [depthsOkList, ih]; tauto

theorem depthsOkList_cons (d : Int) (c : CallStackNode)
    (cs : List CallStackNode) :
    depthsOkList d (c :: cs) = true ↔
      c.depth = d + 1 ∧ depthsOk c = true ∧ depthsOkList d cs = true := by
  simp [depthsOkList, and_assoc]

theorem depthsOkList_dropLast {d : Int} {cs : List CallStackNode}
    (h : depthsOkList d cs = true) : depthsOkList d cs.dropLast = true := by
  induction cs with
  | nil => simpa using h
  | cons c cs ih =>
    cases cs with
    | nil => simp [depthsOkList]
    | cons c' cs' =>
      rw [depthsOkList_cons] at h
      obtain ⟨h1, h2, h3⟩ := h
      show depthsOkList d (c :: (c' :: cs').dropLast) = true
      rw [depthsOkList_cons]
      exact ⟨h1, h2, ih h3⟩

/-- Head adjacency: the first frame sits one depth level above the frame
directly below it (trivially true for a stack of at most one frame). -/
def headAdj (x : CallStackNode) : List CallStackNode → Prop
  | [] => True
  | y :: _ => x.depth = y.depth + 1

/-- Builder-stack invariant: every frame satisfies the parent-child depth
law on the children attached so far, and each frame is one depth level above
the frame below it. -/
def GoodStack : List CallStackNode → Bool
  | [] => true
  | [f] => depthsOk f
  | f :: g :: rest =>
      depthsOk f && (f.depth == g.depth + 1) && GoodStack (g :: rest)

theorem goodStack_cons (x : CallStackNode) (l : List CallStackNode) :
    GoodStack (x :: l) = true ↔
      depthsOk x = true ∧ headAdj x l ∧ GoodStack l = true := by
  cases l with
  | nil => simp [GoodStack, headAdj]
  | cons y rest => simp [GoodStack, headAdj, and_assoc]

/-- Relative depth adjacency of the open-call stack, top first. -/
def Adjacent : List CallStackNode → Bool
  | f :: g :: rest => (f.depth == g.depth + 1) && Adjacent (g :: rest)
  | _ => true

theorem adjacent_cons (x : CallStackNode) (l : List CallStackNode) :
    Adjacent (x :: l) = true ↔ headAdj x l ∧ Adjacent l = true := by
  cases l with
  | nil => simp [Adjacent, headAdj]
  | cons y rest => simp [Adjacent, headAdj]

theorem goodStack_adjacent {l : List CallStackNode}
    (h : GoodStack l = true) : Adjacent l = true := by
  induction l with
  | nil => rfl
  | cons x l ih =>
    rw [goodStack_cons] at h
    rw [adjacent_cons]
    exact ⟨h.2.1, ih h.2.2⟩

theorem headAdj_setCalls (f : CallStackNode) (cs l : List CallStackNode) :
    headAdj (f.setCalls cs) l ↔ headAdj f l := by
  cases l <;> simp [headAdj]

/-- Popping one node preserves the stack invariant, and the new top sits one
depth level below the popped node. -/
theorem goodStack_popStep {f g : CallStackNode} {rest : List CallStackNode}
    (r : InternalTxReturn)
    (h : GoodStack (f :: g :: rest) = true) :
    GoodStack (g.setCalls (g.Calls.dropLast ++ [f.resolve r]) :: rest)
        = true ∧
      (g.setCalls (g.Calls.dropLast ++ [f.resolve r])).depth = f.depth - 1 := by
  rw [goodStack_cons] at h
  obtain ⟨hf, hadj, hg⟩ := h
  rw [goodStack_cons] at hg
  obtain ⟨hgok, hadj2, hrest⟩ := hg
  have hdep : f.depth = g.depth + 1 := hadj
  constructor
  · rw [goodStack_cons]
    refine ⟨?_, (headAdj_setCalls _ _ _).mpr hadj2, hrest⟩
    rw [depthsOk_setCalls, depthsOkList_append]
    constructor
    · exact depthsOkList_dropLast (by rw [← depthsOk_def]; exact hgok)
    · rw [depthsOkList_cons]
      exact ⟨by simp; omega, by simp [hf], rfl⟩
  · simp; omega

/-- Pushing a node whose depth is one above the current top preserves the
stack invariant. -/
theorem goodStack_push {f : CallStackNode} {rest : List CallStackNode}
    {c : InternalTxCall} (hd : c.Depth = f.depth + 1)
    (hg : GoodStack (f :: rest) = true) :
    GoodStack (newNode c ::
        f.setCalls (f.Calls ++ [newNode c]) :: rest) = true := by
  rw [goodStack_cons] at hg
  obtain ⟨hf, hadj, hrest⟩ := hg
  rw [goodStack_cons]
  refine ⟨by simp, ?_, ?_⟩
  · show (newNode c).depth = (f.setCalls (f.Calls ++ [newNode c])).depth + 1
    simp [hd]
  · rw [goodStack_cons]
    refine ⟨?_, (headAdj_setCalls _ _ _).mpr hadj, hrest⟩
    rw [depthsOk_setCalls, depthsOkList_append]
    constructor
    · rw [← depthsOk_def]; exact hf
    · rw [depthsOkList_cons]
      exact ⟨by simp [hd], by simp, rfl⟩

theorem popLoop_good {k : Nat} {ns ns' : List CallStackNode}
    {rets rets' : List InternalTxReturn}
    (h : popLoop k ns rets = some (ns', rets'))
    (hg : GoodStack ns = true) :
    GoodStack ns' = true ∧
      ∀ f l, ns = f :: l →
        ∃ g gs, ns' = g :: gs ∧ g.depth = f.depth - (k : Int) := by
  induction k generalizing ns rets with
  | zero =>
    simp only [popLoop, Option.some.injEq, Prod.mk.injEq] at h
    obtain ⟨h1, h2⟩ := h; subst h1; subst h2
    exact ⟨hg, fun f l hl => ⟨f, l, hl, by simp⟩⟩
  | succ k ih =>
    simp only [popLoop] at h
    match ns, rets with
    | f0 :: g0 :: rest, r :: rs =>
      simp only [popOnce] at h
      obtain ⟨hstep, hdep⟩ := goodStack_popStep r hg
      obtain ⟨ih1, ih2⟩ := ih h hstep
      refine ⟨ih1, ?_⟩
      intro f l hl
      injection hl with hl1 hl2
      subst hl1
      obtain ⟨g, gs, hgs, hd2⟩ := ih2 _ _ rfl
      exact ⟨g, gs, hgs, by rw [hd2, hdep]; push_cast; ring⟩
    | [], _ => simp [popOnce] at h
    | [x], _ => simp [popOnce] at h
    | _ :: _ :: _, [] => simp [popOnce] at h

theorem processCall_good {ns ns' : List CallStackNode}
    {rets rets' : List InternalTxReturn} {c : InternalTxCall}
    (h : processCall (ns, rets) c = some (ns', rets'))
    (hg : GoodStack ns = true) : GoodStack ns' = true := by
  match ns with
  | [] =>
    simp only [processCall, Option.some.injEq, Prod.mk.injEq] at h
    obtain ⟨h1, h2⟩ := h; subst h1; subst h2
    simp [GoodStack]
  | f :: rest =>
    simp only [processCall] at h
    by_cases hd : c.Depth = f.depth + 1
    · rw [if_pos hd] at h
      simp only [Option.some.injEq, Prod.mk.injEq] at h
      obtain ⟨h1, h2⟩ := h; subst h1; subst h2
      exact goodStack_push hd hg
    · rw [if_neg hd] at h
      by_cases hle : c.Depth ≤ f.depth
      · rw [if_pos hle] at h
        match hp : popLoop ((f.depth - c.Depth).toNat + 1) (f :: rest) rets with
        | none => rw [hp] at h; exact absurd h (by simp)
        | some ([], rs) => rw [hp] at h; exact absurd h (by simp)
        | some (top :: rest', rs) =>
          rw [hp] at h
          simp only [Option.some.injEq, Prod.mk.injEq] at h
          obtain ⟨h1, h2⟩ := h; subst h1; subst h2
          obtain ⟨hgood, hdepth⟩ := popLoop_good hp hg
          obtain ⟨g, gs, hgs, hd2⟩ := hdepth _ _ rfl
          injection hgs with hg1 hg2
          subst hg1; subst hg2
          have htop : c.Depth = top.depth + 1 := by
            have hnn : ((f.depth - c.Depth).toNat : Int) = f.depth - c.Depth :=
              Int.toNat_of_nonneg (by omega)
            rw [hd2]; push_cast [hnn]; ring
          exact goodStack_push htop hgood
      · rw [if_neg hle] at h; exact absurd h (by simp)

theorem runCalls_good {cs : List InternalTxCall}
    {ns ns' : List CallStackNode} {rets rets' : List InternalTxReturn}
    (h : runCalls cs (ns, rets) = some (ns', rets'))
    (hg : GoodStack ns = true) : GoodStack ns' = true := by
  induction cs generalizing ns rets with
  | nil =>
    simp only [runCalls, Option.some.injEq, Prod.mk.injEq] at h
    obtain ⟨h1, h2⟩ := h; subst h1; subst h2; exact hg
  | cons c cs ih =>
    simp only [runCalls] at h
    match hp : processCall (ns, rets) c with
    | none => rw [hp] at h; exact absurd h (by simp)
    | some (ns1, rets1) =>
      rw [hp] at h
      exact ih h (processCall_good hp hg)

theorem drainGo_good {f t : CallStackNode} {gs : List CallStackNode}
    {rets rets' : List InternalTxReturn}
    (h : drainGo f gs rets = some (t, rets'))
    (hg : GoodStack (f :: gs) = true) : depthsOk t = true := by
  induction gs generalizing f rets with
  | nil =>
    match rets with
    | [] => simp [drainGo] at h
    | r :: rs =>
      simp only [drainGo, Option.some.injEq, Prod.mk.injEq] at h
      obtain ⟨h1, h2⟩ := h; subst h1; subst h2
      rw [depthsOk_resolve]
      exact ((goodStack_cons _ _).mp hg).1
  | cons g gs ih =>
    match rets with
    | [] => simp [drainGo] at h
    | r :: rs =>
      simp only [drainGo] at h
      exact ih h (goodStack_popStep r hg).1

/-- On success the tree returned by the builder satisfies the parent-child
depth law everywhere. -/
theorem buildCallStack_good {tx tx' : Transaction} {t : CallStackNode}
    (h : buildCallStack tx = some (t, tx')) : depthsOk t = true := by
  simp only [buildCallStack] at h
  split at h
  · exact absurd h (by simp)
  next ns rets hr =>
    split at h
    · exact absurd h (by simp)
    next node0 rets2 hd =>
      simp only [Option.some.injEq, Prod.mk.injEq] at h
      obtain ⟨h1, h2⟩ := h; subst h1; subst h2
      have hg : GoodStack ns = true := runCalls_good hr rfl
      match ns, hd with
      | [], hd => simp [drain] at hd
      | f :: rest, hd =>
        simp only [drain] at hd
        exact drainGo_good hd hg

/-! ## Concrete fixtures used by witnesses and counterexamples -/

def wCall0 : InternalTxCall := ⟨0, 10, 11, [1], 100, false⟩

def wCall1 : InternalTxCall := ⟨1, 11, 12, [2], 90, false⟩

def wCall2skip : InternalTxCall := ⟨2, 12, 13, [3], 80, false⟩

def wRet0 : InternalTxReturn := ⟨[4], 0, 70⟩

def wRet1 : InternalTxReturn := ⟨[5], 0, 60⟩

def wNode0 : CallStackNode := .mk 0 10 11 [1] [] 0 0 []

def wNode1 : CallStackNode := .mk 1 11 12 [2] [] 0 0 []

/-- Exact characterization of a successful run of the pop loop on an
adjacent stack: `k` iterations pop exactly `k` frames, consume exactly the
first `k` returns, and leave a top exactly `k` depth levels below the old
top. -/
theorem popLoop_run {k : Nat} {f : CallStackNode} {fs : List CallStackNode}
    {rets : List InternalTxReturn}
    (hadj : Adjacent (f :: fs) = true)
    (hk : k ≤ fs.length) (hr : k ≤ rets.length) :
    ∃ g gs, popLoop k (f :: fs) rets = some (g :: gs, rets.drop k) ∧
      (g :: gs).length + k = (f :: fs).length ∧
      g.depth = f.depth - (k : Int) ∧ Adjacent (g :: gs) = true := by
  induction k generalizing f fs rets with
  | zero => exact ⟨f, fs, by simp [popLoop], by simp, by simp, hadj⟩
  | succ k ih =>
    match fs, rets with
    | [], _ => simp at hk
    | g0 :: rest, [] => simp at hr
    | g0 :: rest, r :: rs =>
      have hk' : k ≤ rest.length := by
        simp only [List.length_cons] at hk; omega
      have hr' : k ≤ rs.length := by
        simp only [List.length_cons] at hr; omega
      rw [adjacent_cons] at hadj
      obtain ⟨hhd, hadj2⟩ := hadj
      rw [adjacent_cons] at hadj2
      obtain ⟨hhd2, hadj3⟩ := hadj2
      have hadj' :
          Adjacent (g0.setCalls (g0.Calls.dropLast ++ [f.resolve r]) ::
            rest) = true := by
        rw [adjacent_cons]
        exact ⟨(headAdj_setCalls _ _ _).mpr hhd2, hadj3⟩
      obtain ⟨g, gs, hpl, hlen, hdep, hadjf⟩ := ih hadj' hk' hr'
      refine ⟨g, gs, ?_, ?_, ?_, hadjf⟩
      · show popLoop (k + 1) (f :: g0 :: rest) (r :: rs) = _
        simp only [popLoop, popOnce]
        rw [hpl]
        rfl
      · simp only [List.length_cons] at hlen ⊢; omega
      · have : f.depth = g0.depth + 1 := hhd
        rw [hdep]; simp; omega

/-- C1: for a subsequent CallEvent whose depth is at most the depth of the
node on top of the open-call stack, the builder pops exactly
`top.depth - depth + 1` nodes — each popped node being resolved with the
output, status code and remaining gas of the ReturnEvent dequeued from the
front of the return queue (the `popOnce` steps inside `popLoop`) — so that
the new top's depth equals `depth - 1`, and it then appends the new node as
the last child of that new top and pushes it. -/
theorem c1_pop_resolve_push (f : CallStackNode) (fs : List CallStackNode)
    (rets : List InternalTxReturn) (call : InternalTxCall)
    (hadj : Adjacent (f :: fs) = true)
    (hle : call.Depth ≤ f.depth)
    (hfs : (f.depth - call.Depth).toNat + 1 ≤ fs.length)
    (hrets : (f.depth - call.Depth).toNat + 1 ≤ rets.length) :
    ∃ g gs,
      popLoop ((f.depth - call.Depth).toNat + 1) (f :: fs) rets =
        some (g :: gs, rets.drop ((f.depth - call.Depth).toNat + 1)) ∧
      (g :: gs).length + ((f.depth - call.Depth).toNat + 1) =
        (f :: fs).length ∧
      g.depth = call.Depth - 1 ∧
      processCall (f :: fs, rets) call =
        some (newNode call :: g.setCalls (g.Calls ++ [newNode call]) :: gs,
              rets.drop ((f.depth - call.Depth).toNat + 1)) := by
  obtain ⟨g, gs, hpl, hlen, hdep, hadjf⟩ := popLoop_run hadj hfs hrets
  have hnn : ((f.depth - call.Depth).toNat : Int) = f.depth - call.Depth :=
    Int.toNat_of_nonneg (by omega)
  have hgd : g.depth = call.Depth - 1 := by
    rw [hdep]; push_cast [hnn]; ring
  refine ⟨g, gs, hpl, hlen, hgd, ?_⟩
  have hne : ¬ call.Depth = f.depth + 1 := by omega
  simp only [processCall, if_neg hne, if_pos hle, hpl]

theorem c1_pop_resolve_push_witness :
    ∃ g gs,
      popLoop 1 [wNode1, wNode0] [wRet0] = some (g :: gs, []) ∧
      (g :: gs).length + 1 = 2 ∧
      g.depth = wCall1.Depth - 1 ∧
      processCall ([wNode1, wNode0], [wRet0]) wCall1 =
        some (newNode wCall1 ::
                g.setCalls (g.Calls ++ [newNode wCall1]) :: gs, []) :=
  c1_pop_resolve_push wNode1 [wNode0] [wRet0] wCall1
    (by decide) (by decide) (by decide) (by decide)

theorem runCalls_append (xs ys : List InternalTxCall)
    (st : List CallStackNode × List InternalTxReturn) :
    runCalls (xs ++ ys) st =
      match runCalls xs st with
      | none => none
      | some st' => runCalls ys st' := by
  induction xs generalizing st with
  | nil => simp [runCalls]
  | cons c cs ih =>
    simp only [List.cons_append, runCalls]
    match processCall st c with
    | none => rfl
    | some st1 => exact ih st1

/-- C3: a CallEvent whose depth exceeds the depth of the current stack top
by more than one makes the step fail (the explicit malformed-trace `panic`)
and hence the whole builder fails, returning no partial tree. -/
theorem c3_depth_skip_fails (cs₁ cs₂ : List InternalTxCall)
    (c : InternalTxCall) (rets₀ rets : List InternalTxReturn)
    (f : CallStackNode) (fs : List CallStackNode)
    (h₁ : runCalls cs₁ ([], rets₀) = some (f :: fs, rets))
    (h₂ : f.depth + 1 < c.Depth) :
    processCall (f :: fs, rets) c = none ∧
      buildCallStack ⟨cs₁ ++ c :: cs₂, rets₀⟩ = none := by
  have hpc : processCall (f :: fs, rets) c = none := by
    have hne : ¬ c.Depth = f.depth + 1 := by omega
    have hnle : ¬ c.Depth ≤ f.depth := by omega
    simp only [processCall, if_neg hne, if_neg hnle]
  refine ⟨hpc, ?_⟩
  have hrun : runCalls (cs₁ ++ c :: cs₂) ([], rets₀) = none := by
    rw [runCalls_append, h₁]
    simp only [runCalls, hpc]
  simp only [buildCallStack, hrun]

theorem c3_depth_skip_fails_witness :
    processCall ([newNode wCall0], [wRet0, wRet1]) wCall2skip = none ∧
      buildCallStack ⟨[wCall0, wCall2skip], [wRet0, wRet1]⟩ = none :=
  c3_depth_skip_fails [wCall0] [] wCall2skip [wRet0, wRet1] [wRet0, wRet1]
    (newNode wCall0) [] rfl (by decide)

/-- C4 counterexample: on the empty trace (zero CallEvents, zero
ReturnEvents) the builder does not succeed with an empty result; it aborts
(the Go code panics at `node0 := nodes[0]` on the empty node slice). -/
theorem c4_empty_trace_counterexample : buildCallStack ⟨[], []⟩ = none := rfl

/-- C4 amended: a transaction with zero CallEvents always makes the builder
fail — there is no error-free empty result. -/
theorem c4_empty_trace_fails (rets : List InternalTxReturn) :
    buildCallStack ⟨[], rets⟩ = none := rfl

theorem c4_empty_trace_fails_witness :
    buildCallStack ⟨[], [wRet0]⟩ = none :=
  c4_empty_trace_fails [wRet0]

/-- C5: whenever there are fewer ReturnEvents than CallEvents — so the
return queue necessarily runs dry before the open-call stack is fully
drained — the builder fails instead of returning a tree with unresolved
nodes. -/
theorem c5_missing_returns_fail {tx : Transaction}
    (h : tx.InternalTxReturns.length < tx.InternalTxCalls.length) :
    buildCallStack tx = none := by
  match hb : buildCallStack tx with
  | none => rfl
  | some (t, tx') =>
    have hle := (buildCallStack_flatten hb).2.2.1
    exact absurd hle (by omega)

theorem c5_missing_returns_fail_witness :
    buildCallStack ⟨[wCall0, wCall1], [wRet0]⟩ = none :=
  c5_missing_returns_fail (by decide)

/-! ## Appending extra returns

The Go builder never checks that the return queue is empty when it
finishes: returns beyond the first `len(calls)` are simply left unconsumed.
The following monotonicity lemmas make that precise. -/

theorem popOnce_appendRets {ns ns1 : List CallStackNode}
    {rets rets1 extra : List InternalTxReturn}
    (h : popOnce ns rets = some (ns1, rets1)) :
    popOnce ns (rets ++ extra) = some (ns1, rets1 ++ extra) := by
  match ns, rets with
  | f :: g :: rest, r :: rs =>
    simp only [popOnce, Option.some.injEq, Prod.mk.injEq] at h
    obtain ⟨h1, h2⟩ := h; subst h1; subst h2
    rfl
  | [], _ => simp [popOnce] at h
  | [x], _ => simp [popOnce] at h
  | _ :: _ :: _, [] => simp [popOnce] at h

theorem popLoop_appendRets {k : Nat} {ns ns1 : List CallStackNode}
    {rets rets1 extra : List InternalTxReturn}
    (h : popLoop k ns rets = some (ns1, rets1)) :
    popLoop k ns (rets ++ extra) = some (ns1, rets1 ++ extra) := by
  induction k generalizing ns rets with
  | zero =>
    simp only [popLoop, Option.some.injEq, Prod.mk.injEq] at h
    obtain ⟨h1, h2⟩ := h; subst h1; subst h2; rfl
  | succ k ih =>
    simp only [popLoop] at h ⊢
    match hp : popOnce ns rets with
    | none => rw [hp] at h; exact absurd h (by simp)
    | some (ns2, rets2) =>
      rw [hp] at h
      rw [popOnce_appendRets hp]
      exact ih h

theorem processCall_appendRets {ns ns1 : List CallStackNode}
    {rets rets1 extra : List InternalTxReturn} {c : InternalTxCall}
    (h : processCall (ns, rets) c = some (ns1, rets1)) :
    processCall (ns, rets ++ extra) c = some (ns1, rets1 ++ extra) := by
  match ns with
  | [] =>
    simp only [processCall, Option.some.injEq, Prod.mk.injEq] at h
    obtain ⟨h1, h2⟩ := h; subst h1; subst h2; rfl
  | f :: rest =>
    simp only [processCall] at h ⊢
    by_cases hd : c.Depth = f.depth + 1
    · rw [if_pos hd] at h ⊢
      simp only [Option.some.injEq, Prod.mk.injEq] at h
      obtain ⟨h1, h2⟩ := h; subst h1; subst h2; rfl
    · rw [if_neg hd] at h ⊢
      by_cases hle : c.Depth ≤ f.depth
      · rw [if_pos hle] at h ⊢
        match hp : popLoop ((f.depth - c.Depth).toNat + 1) (f :: rest) rets with
        | none => rw [hp] at h; exact absurd h (by simp)
        | some ([], rs) => rw [hp] at h; exact absurd h (by simp)
        | some (top :: rest', rs) =>
          rw [hp] at h
          simp only [Option.some.injEq, Prod.mk.injEq] at h
          obtain ⟨h1, h2⟩ := h; subst h1; subst h2
          rw [popLoop_appendRets hp]
      · rw [if_neg hle] at h; exact absurd h (by simp)

theorem runCalls_appendRets {cs : List InternalTxCall}
    {ns ns1 : List CallStackNode}
    {rets rets1 extra : List InternalTxReturn}
    (h : runCalls cs (ns, rets) = some (ns1, rets1)) :
    runCalls cs (ns, rets ++ extra) = some (ns1, rets1 ++ extra) := by
  induction cs generalizing ns rets with
  | nil =>
    simp only [runCalls, Option.some.injEq, Prod.mk.injEq] at h
    obtain ⟨h1, h2⟩ := h; subst h1; subst h2; rfl
  | cons c cs ih =>
    simp only [runCalls] at h ⊢
    match hp : processCall (ns, rets) c with
    | none => rw [hp] at h; exact absurd h (by simp)
    | some (ns2, rets2) =>
      rw [hp] at h
      rw [processCall_appendRets hp]
      exact ih h

theorem drainGo_appendRets {f t : CallStackNode} {gs : List CallStackNode}
    {rets rets1 extra : List InternalTxReturn}
    (h : drainGo f gs rets = some (t, rets1)) :
    drainGo f gs (rets ++ extra) = some (t, rets1 ++ extra) := by
  induction gs generalizing f rets with
  | nil =>
    match rets with
    | [] => simp [drainGo] at h
    | r :: rs =>
      simp only [drainGo, Option.some.injEq, Prod.mk.injEq] at h
      obtain ⟨h1, h2⟩ := h; subst h1; subst h2; rfl
  | cons g gs ih =>
    match rets with
    | [] => simp [drainGo] at h
    | r :: rs =>
      simp only [drainGo] at h
      exact ih h

/-- Introduction form for a successful builder run from its two phases. -/
theorem buildCallStack_eq {tx : Transaction} {ns : List CallStackNode}
    {rs rs2 : List InternalTxReturn} {t : CallStackNode}
    (hr : runCalls tx.InternalTxCalls ([], tx.InternalTxReturns) =
      some (ns, rs))
    (hd : drain ns rs = some (t, rs2)) :
    buildCallStack tx = some (t, { tx with InternalTxReturns := rs2 }) := by
  simp only [buildCallStack, hr, hd]

/-- C6 amended: ReturnEvents left over after the final drain are not an
error — they are simply ignored.  Appending extra returns to a trace the
builder accepts yields the same tree, with the extra returns left
unconsumed in the post-state transaction. -/
theorem c6_extra_returns_ignored (calls : List InternalTxCall)
    (rets extra : List InternalTxReturn) (t : CallStackNode)
    (tx' : Transaction)
    (h : buildCallStack ⟨calls, rets⟩ = some (t, tx')) :
    buildCallStack ⟨calls, rets ++ extra⟩ =
      some (t, ⟨calls, tx'.InternalTxReturns ++ extra⟩) := by
  simp only [buildCallStack] at h
  split at h
  · exact absurd h (by simp)
  next ns rs hr =>
    split at h
    · exact absurd h (by simp)
    next node0 rs2 hd =>
      simp only [Option.some.injEq, Prod.mk.injEq] at h
      obtain ⟨h1, h2⟩ := h; subst h1; subst h2
      have hr' : runCalls calls ([], rets ++ extra) = some (ns, rs ++ extra) :=
        runCalls_appendRets hr
      have hd' : drain ns (rs ++ extra) = some (node0, rs2 ++ extra) := by
        match ns, hd with
        | [], hd => simp [drain] at hd
        | f :: rest, hd =>
          simp only [drain] at hd ⊢
          exact drainGo_appendRets hd
      exact buildCallStack_eq hr' hd'

/-- C6 counterexample: with one CallEvent and two ReturnEvents (more returns
than calls) the builder succeeds, leaving the extra return unconsumed — it
does not fail with a malformed-trace error as the claim demands. -/
theorem c6_extra_returns_counterexample :
    buildCallStack ⟨[wCall0], [wRet0, wRet1]⟩ =
      some (.mk 0 10 11 [1] [4] 0 70 [], ⟨[wCall0], [wRet1]⟩) := rfl

theorem c6_extra_returns_ignored_witness :
    buildCallStack ⟨[wCall0], [wRet0] ++ [wRet1]⟩ =
      some (.mk 0 10 11 [1] [4] 0 70 [],
        ⟨[wCall0], (⟨[wCall0], []⟩ : Transaction).InternalTxReturns ++
          [wRet1]⟩) :=
  c6_extra_returns_ignored [wCall0] [wRet0] [wRet1]
    (.mk 0 10 11 [1] [4] 0 70 []) ⟨[wCall0], []⟩ rfl

def c9tx : Transaction := ⟨[wCall0], [wRet0]⟩

/-- C9 counterexample: the builder does modify its input: it consumes the
transaction's `InternalTxReturns` in place.  On a one-call transaction the
post-state return queue is empty (not the original one-element queue), and
re-running the builder on the post-state transaction fails. -/
theorem c9_mutates_input_counterexample :
    buildCallStack c9tx =
      some (.mk 0 10 11 [1] [4] 0 70 [], ⟨[wCall0], []⟩) ∧
      (⟨[wCall0], []⟩ : Transaction).InternalTxReturns ≠
        c9tx.InternalTxReturns ∧
      buildCallStack ⟨[wCall0], []⟩ = none :=
  ⟨rfl, by decide, rfl⟩

/-- C9 amended: reconstruction is deterministic — a pure function of the
two event sequences: transactions with equal CallEvent and ReturnEvent
sequences produce identical results.  However the builder does modify its
input: the post-state transaction's return queue is the input queue with
the first `len(CallEvents)` elements consumed (the Go code advances
`tx.InternalTxReturns` in place); the call sequence is untouched. -/
theorem c9_deterministic_but_consumes_returns {tx₁ tx₂ tx' : Transaction}
    {t : CallStackNode}
    (hc : tx₁.InternalTxCalls = tx₂.InternalTxCalls)
    (hr : tx₁.InternalTxReturns = tx₂.InternalTxReturns)
    (h : buildCallStack tx₁ = some (t, tx')) :
    buildCallStack tx₂ = some (t, tx') ∧
      tx'.InternalTxCalls = tx₁.InternalTxCalls ∧
      tx'.InternalTxReturns =
        tx₁.InternalTxReturns.drop tx₁.InternalTxCalls.length := by
  have htx : tx₁ = tx₂ := by cases tx₁; cases tx₂; simp_all
  subst htx
  obtain ⟨_, h2, _, h4⟩ := buildCallStack_flatten h
  exact ⟨h, h4, h2⟩

theorem c9_deterministic_but_consumes_returns_witness :
    buildCallStack c9tx =
      some (.mk 0 10 11 [1] [4] 0 70 [], ⟨[wCall0], []⟩) ∧
      (⟨[wCall0], []⟩ : Transaction).InternalTxCalls =
        c9tx.InternalTxCalls ∧
      (⟨[wCall0], []⟩ : Transaction).InternalTxReturns =
        c9tx.InternalTxReturns.drop c9tx.InternalTxCalls.length :=
  @c9_deterministic_but_consumes_returns c9tx c9tx ⟨[wCall0], []⟩
    (.mk 0 10 11 [1] [4] 0 70 []) rfl rfl rfl

/-- C7: for a trace the builder accepts with equally many CallEvents and
ReturnEvents, the built tree contains exactly `len(CallEvents)` nodes, and
its pre-order traversal visits the nodes in exactly the order of the
original CallEvents. -/
theorem c7_count_and_preorder {tx tx' : Transaction} {t : CallStackNode}
    (hlen : tx.InternalTxReturns.length = tx.InternalTxCalls.length)
    (h : buildCallStack tx = some (t, tx')) :
    countTree t = tx.InternalTxCalls.length ∧
      flattenTree t = tx.InternalTxCalls.map callIdOf := by
  obtain ⟨h1, _, _, _⟩ := buildCallStack_flatten h
  refine ⟨?_, h1⟩
  rw [countTree_flatten, h1, List.length_map]

theorem c7_count_and_preorder_witness :
    countTree (CallStackNode.mk 0 10 11 [1] [5] 0 60
        [.mk 1 11 12 [2] [4] 0 70 []]) =
      ([wCall0, wCall1] : List InternalTxCall).length ∧
      flattenTree (CallStackNode.mk 0 10 11 [1] [5] 0 60
        [.mk 1 11 12 [2] [4] 0 70 []]) =
        [wCall0, wCall1].map callIdOf :=
  @c7_count_and_preorder ⟨[wCall0, wCall1], [wRet0, wRet1]⟩
    ⟨[wCall0, wCall1], []⟩
    (.mk 0 10 11 [1] [5] 0 60 [.mk 1 11 12 [2] [4] 0 70 []])
    (by decide) rfl

/-- C10: in every tree the builder returns, each child node's depth equals
its parent's depth plus one (`depthsOk`), and the children of every node
appear in the order their CallEvents occurred: the pre-order listing of the
tree is exactly the CallEvent sequence. -/
theorem c10_child_depth_and_order {tx tx' : Transaction} {t : CallStackNode}
    (h : buildCallStack tx = some (t, tx')) :
    depthsOk t = true ∧ flattenTree t = tx.InternalTxCalls.map callIdOf :=
  ⟨buildCallStack_good h, (buildCallStack_flatten h).1⟩

theorem c10_child_depth_and_order_witness :
    depthsOk (CallStackNode.mk 0 10 11 [1] [5] 0 60
        [.mk 1 11 12 [2] [4] 0 70 []]) = true ∧
      flattenTree (CallStackNode.mk 0 10 11 [1] [5] 0 60
        [.mk 1 11 12 [2] [4] 0 70 []]) =
        [wCall0, wCall1].map callIdOf :=
  @c10_child_depth_and_order ⟨[wCall0, wCall1], [wRet0, wRet1]⟩
    ⟨[wCall0, wCall1], []⟩
    (.mk 0 10 11 [1] [5] 0 60 [.mk 1 11 12 [2] [4] 0 70 []]) rfl

/-! ## Path labeling and receipt projection

These two components (spec §4.2 and §4.3) are not part of the sources given
here: only their expected outputs appear in the tests
(`TestGetTransactionReceipt`).  They are therefore modelled from the spec's
words. -/

/-- Modelled from the spec: hexadecimal rendering of a natural number in the
0x-prefixed lowercase convention of the receipt API (`hexutil`), e.g.
`0x0`, `0x15abd`. -/
def toHex (n : Nat) : String := "0x" ++ String.mk (Nat.toDigits 16 n)

/-- Modelled from the spec: hexadecimal rendering of an integer (negative
values, which well-formed traces never produce, carry a leading minus as in
`hexutil.Big`). -/
def intToHex (i : Int) : String :=
  if i < 0 then "-0x" ++ String.mk (Nat.toDigits 16 (-i).toNat)
  else toHex i.toNat

/-- Modelled from the spec: the path prefix contributed by a node's own
call kind (§4.2): `staticcall` for a read-only call, `call` otherwise. -/
def pathOf (ro : Bool) (suffix : String) : String :=
  (if ro then "staticcall_" else "call_") ++ suffix

/-- Modelled from the spec: one element of the flattened
`internalTransactions` receipt list (§4.3, §6).  Integer fields are rendered
as 0x-prefixed hexadecimal strings; addresses and byte payloads are carried
opaquely (their hex rendering is transport encoding and plays no role in the
claims). -/
structure LabeledCallRecord where
  callPath : String
  From : Address
  To : Address
  gas : String
  value : String
  input : Bytes
  status : String
  gasUsed : String
  output : Bytes
  deriving Repr, DecidableEq

mutual

/-- Modelled from the spec: pre-order projection of one node (§4.2–§4.3).
The node's path and numeric suffix have been computed by its parent, and
`gasEntry` is the gas available at this call's entry; `meta` carries the
(call-kind, entry-gas) pairs of the remaining nodes in pre-order — the order
of the CallEvents, which carry those two fields.  Emits the node's record
(`gasUsed` = entry gas minus the `GasLeft` recorded at resolution, `value`
0 as these events record none) followed by its children's records, child
`i` of a parent with numeric suffix `P` being labeled `<kind>_<P>_<i>`. -/
def projNode (t : CallStackNode) (path suffix : String) (gasEntry : Int)
    (meta : List (Bool × Int)) :
    List LabeledCallRecord × List (Bool × Int) :=
  match t with
  | .mk d fr u i o s g cs =>
    let p := projKids cs suffix 0 meta
    ({ callPath := path, From := fr, To := u, gas := intToHex gasEntry,
       value := "0x0", input := i, status := intToHex s,
       gasUsed := intToHex (gasEntry - g), output := o } :: p.1, p.2)

def projKids : List CallStackNode → String → Nat → List (Bool × Int) →
    List LabeledCallRecord × List (Bool × Int)
  | [], _, _, meta => ([], meta)
  | c :: cs, suffix, i, meta =>
      let m := meta.headD (false, 0)
      let csuffix := suffix ++ "_" ++ toString i
      let p1 := projNode c (pathOf m.1 csuffix) csuffix m.2 meta.tail
      let p2 := projKids cs suffix (i + 1) p1.2
      (p1.1 ++ p2.1, p2.2)

end

/-- Modelled from the spec: the flattened, path-labeled receipt list of a
resolved call tree (§4.2–§4.3).  The root's path is always `call_0` (the
outermost call is treated as value-mutating) and its numeric suffix is `0`;
`meta` lists each node's (call-kind, entry-gas) pair in pre-order. -/
def projectRecords (t : CallStackNode) (meta : List (Bool × Int)) :
    List LabeledCallRecord :=
  (projNode t "call_0" "0" (meta.headD (false, 0)).2 meta.tail).1

/-- The (kind, entry-gas) metadata carried by a call-event sequence. -/
def metaOf (calls : List InternalTxCall) : List (Bool × Int) :=
  calls.map fun c => (c.ReadOnly, c.Gas)

example :
    (projectRecords (.mk 0 10 11 [1] [4] 0 70 []) [(false, 100)]).map
        (fun r => (r.callPath, r.gas, r.gasUsed)) =
      [("call_0", "0x64", "0x1e")] := rfl

/-! ## The concrete 2x2 fan-out scenario -/

def c2calls : List InternalTxCall :=
  [⟨0, 20, 30, [0], 900, false⟩,
   ⟨1, 30, 31, [1], 800, false⟩,
   ⟨2, 31, 32, [2], 700, false⟩,
   ⟨2, 31, 32, [3], 600, true⟩,
   ⟨1, 30, 31, [4], 500, false⟩,
   ⟨2, 31, 32, [5], 400, false⟩,
   ⟨2, 31, 32, [6], 300, true⟩]

def c2rets : List InternalTxReturn :=
  [⟨[10], 0, 290⟩, ⟨[11], 0, 280⟩, ⟨[12], 0, 270⟩, ⟨[13], 0, 260⟩,
   ⟨[14], 0, 250⟩, ⟨[15], 0, 240⟩, ⟨[16], 0, 230⟩]

/-- The tree the builder produces on `c2calls`/`c2rets`: one root, two
depth-1 children, and two depth-2 children under each depth-1 child.  The
returns are matched in completion order: the two depth-2 children of the
first depth-1 child close first, then that child, then the second fan-out,
and the drain resolves the remaining open calls top-down (root last). -/
def c2tree : CallStackNode :=
  .mk 0 20 30 [0] [16] 0 230
    [.mk 1 30 31 [1] [12] 0 270
       [.mk 2 31 32 [2] [10] 0 290 [],
        .mk 2 31 32 [3] [11] 0 280 []],
     .mk 1 30 31 [4] [15] 0 240
       [.mk 2 31 32 [5] [13] 0 260 [],
        .mk 2 31 32 [6] [14] 0 250 []]]

/-- C2: on the depth sequence `[0,1,2,2,1,2,2]` with 7 matching
ReturnEvents of status 0 the builder produces one root with two depth-1
children, each carrying two depth-2 children, and the flattened output
labels them `call_0`, `call_0_0`, `call_0_0_0`, `staticcall_0_0_1`,
`call_0_1`, `call_0_1_0`, `staticcall_0_1_1` in pre-order, the second child
of each depth-2 pair being tagged read-only. -/
theorem c2_fanout_scenario :
    buildCallStack ⟨c2calls, c2rets⟩ = some (c2tree, ⟨c2calls, []⟩) ∧
      c2calls.map InternalTxCall.Depth = [0, 1, 2, 2, 1, 2, 2] ∧
      c2rets.map InternalTxReturn.StatusCode = [0, 0, 0, 0, 0, 0, 0] ∧
      c2calls.map InternalTxCall.ReadOnly =
        [false, false, false, true, false, false, true] ∧
      c2tree.Calls.map CallStackNode.depth = [1, 1] ∧
      c2tree.Calls.map (fun n => n.Calls.map CallStackNode.depth) =
        [[2, 2], [2, 2]] ∧
      (projectRecords c2tree (metaOf c2calls)).map LabeledCallRecord.callPath =
        ["call_0", "call_0_0", "call_0_0_0", "staticcall_0_0_1",
         "call_0_1", "call_0_1_0", "staticcall_0_1_1"] := by
  refine ⟨rfl, rfl, rfl, rfl, rfl, rfl, ?_⟩
  rfl

/-! ## Gas accounting of the projected records -/

mutual

/-- Pre-order listing of the `GasLeft` values recorded on the nodes — each
one assigned from the ReturnEvent the builder matched to that call. -/
def gasLeftsTree : CallStackNode → List Int
  | .mk _ _ _ _ _ _ g cs => g :: gasLeftsForest cs

def gasLeftsForest : List CallStackNode → List Int
  | [] => []
  | c :: cs => gasLeftsTree c ++ gasLeftsForest cs

end

mutual

theorem gasLeftsTree_length (t : CallStackNode) :
    (gasLeftsTree t).length = countTree t := by
  match t with
  | .mk d f u i o s g cs =>
      simp [gasLeftsTree, countTree, gasLeftsForest_length cs, Nat.add_comm]

theorem gasLeftsForest_length (cs : List CallStackNode) :
    (gasLeftsForest cs).length = countForest cs := by
  match cs with
  | [] => simp [gasLeftsForest, countForest]
  | c :: cs =>
      simp [gasLeftsForest, countForest, gasLeftsTree_length c,
        gasLeftsForest_length cs]

end

theorem countTree_pos (t : CallStackNode) : 1 ≤ countTree t := by
  cases t with
  | mk d f u i o s g cs => simp [countTree]

theorem zipWith_split {α β γ : Type} (f : α → β → γ) :
    ∀ (as : List β) (l : List α) (bs : List β),
      List.zipWith f l (as ++ bs) =
        List.zipWith f (l.take as.length) as ++
          List.zipWith f (l.drop as.length) bs := by
  intro as
  induction as with
  | nil => intro l bs; simp
  | cons a as ih =>
    intro l bs
    match l with
    | [] => simp
    | x :: l' =>
      simp only [List.cons_append, List.zipWith, List.length_cons,
        List.take, List.drop, List.append_eq]
      rw [ih l' bs]

theorem zipWith_take_ge {α β γ : Type} (f : α → β → γ) :
    ∀ (as : List β) (l : List α) (n : Nat), as.length ≤ n →
      List.zipWith f (l.take n) as = List.zipWith f l as := by
  intro as
  induction as with
  | nil => intro l n h; simp
  | cons a as ih =>
    intro l n h
    match l, n with
    | [], _ => simp
    | x :: l', 0 => simp at h
    | x :: l', n + 1 =>
      simp only [List.take, List.zipWith]
      rw [ih l' n (by simpa using h)]

mutual

/-- Alignment of the projector with the pre-order metadata: given enough
metadata entries, the projector consumes exactly one entry per node in
pre-order, and every record's `gas`/`gasUsed` fields render that node's
entry gas and entry gas minus recorded `GasLeft`. -/
theorem projNode_spec (t : CallStackNode) (path suffix : String) (g0 : Int)
    (meta : List (Bool × Int)) (hm : countTree t ≤ meta.length + 1) :
    (projNode t path suffix g0 meta).2 = meta.drop (countTree t - 1) ∧
      (projNode t path suffix g0 meta).1.map (fun r => (r.gas, r.gasUsed)) =
        List.zipWith (fun g n => (intToHex g, intToHex (g - n)))
          (g0 :: meta.map Prod.snd) (gasLeftsTree t) := by
  match t with
  | .mk d fr u i o s g cs =>
    have hm' : countForest cs ≤ meta.length := by
      simp only [countTree] at hm; omega
    obtain ⟨k2, k1⟩ := projKids_spec cs suffix 0 meta hm'
    constructor
    · simp only [projNode, k2, countTree]
      congr 1
      omega
    · simp only [projNode, List.map_cons, k1, gasLeftsTree, List.zipWith]

theorem projKids_spec (cs : List CallStackNode) (suffix : String) (i : Nat)
    (meta : List (Bool × Int)) (hm : countForest cs ≤ meta.length) :
    (projKids cs suffix i meta).2 = meta.drop (countForest cs) ∧
      (projKids cs suffix i meta).1.map (fun r => (r.gas, r.gasUsed)) =
        List.zipWith (fun g n => (intToHex g, intToHex (g - n)))
          (meta.map Prod.snd) (gasLeftsForest cs) := by
  match cs with
  | [] => simp [projKids, countForest, gasLeftsForest]
  | c :: cs =>
    have hpos := countTree_pos c
    have hlen : countTree c + countForest cs ≤ meta.length := by
      simpa [countForest] using hm
    match meta with
    | [] => exact absurd hlen (by simp; omega)
    | m :: meta' =>
      have h1 : countTree c ≤ meta'.length + 1 := by
        simp only [List.length_cons] at hlen; omega
      obtain ⟨n2, n1⟩ := projNode_spec c
        (pathOf m.1 (suffix ++ "_" ++ toString i))
        (suffix ++ "_" ++ toString i) m.2 meta' h1
      have h2 : countForest cs ≤ (meta'.drop (countTree c - 1)).length := by
        simp only [List.length_drop, List.length_cons] at hlen ⊢; omega
      obtain ⟨k2b, k1b⟩ := projKids_spec cs suffix (i + 1)
        (meta'.drop (countTree c - 1)) h2
      have hcf : countForest (c :: cs) = countTree c + countForest cs := by
        simp [countForest]
      have hsucc : countTree c = (countTree c - 1) + 1 := by omega
      constructor
      · simp only [projKids, List.headD, List.tail, n2, k2b, List.drop_drop]
        rw [hcf, show countTree c + countForest cs =
            ((countTree c - 1) + countForest cs) + 1 by omega,
          List.drop_succ_cons]
      · simp only [projKids, List.headD, List.tail, List.map_append, n2,
          n1, k1b, gasLeftsForest, List.map_cons]
        rw [zipWith_split]
        congr 1
        · rw [gasLeftsTree_length]
          exact (zipWith_take_ge _ (gasLeftsTree c)
            (m.2 :: meta'.map Prod.snd) (countTree c)
            (le_of_eq (gasLeftsTree_length c))).symm
        · rw [gasLeftsTree_length]
          conv_rhs => rw [hsucc]
          rw [List.drop_succ_cons, List.map_drop]

end

theorem zipWith_gasfun (l : List InternalTxCall) (L : List Int) :
    List.zipWith (fun c g => (intToHex c.Gas, intToHex (c.Gas - g))) l L =
      List.zipWith (fun g n => (intToHex g, intToHex (g - n)))
        (l.map InternalTxCall.Gas) L := by
  induction l generalizing L with
  | nil => simp
  | cons c l ih =>
    match L with
    | [] => simp
    | g :: L' => simp only [List.zipWith, List.map_cons, ih]

/-- C8: whenever the builder accepts a trace, every record of the projected
receipt list renders, in 0x-prefixed hexadecimal, the entry gas of its call
(`gas`) and the entry gas minus the `GasLeft` the builder recorded on that
node (`gasUsed`) — and that `GasLeft` is, by the resolution step of the
builder, exactly the one carried by the ReturnEvent matched to the call.
The records align one-to-one, in order, with the CallEvent sequence. -/
theorem c8_gas_used_hex {calls : List InternalTxCall}
    {rets : List InternalTxReturn} {t : CallStackNode} {tx' : Transaction}
    (h : buildCallStack ⟨calls, rets⟩ = some (t, tx')) :
    (projectRecords t (metaOf calls)).map (fun r => (r.gas, r.gasUsed)) =
      List.zipWith (fun c g => (intToHex c.Gas, intToHex (c.Gas - g)))
        calls (gasLeftsTree t) := by
  obtain ⟨hflat, _, _, _⟩ := buildCallStack_flatten h
  have hcount : countTree t = calls.length := by
    rw [countTree_flatten, hflat, List.length_map]
  match calls, hflat, hcount with
  | [], hflat, _ =>
    rw [flattenTree_eq_flatNon_calls] at hflat
    simp at hflat
  | c0 :: calls', hflat, hcount =>
    have hm : countTree t ≤ (metaOf calls').length + 1 := by
      simp only [metaOf, List.length_map]
      simp only [List.length_cons] at hcount
      omega
    obtain ⟨_, hmap⟩ := projNode_spec t "call_0" "0" c0.Gas (metaOf calls') hm
    have hmeta : metaOf (c0 :: calls') =
        (c0.ReadOnly, c0.Gas) :: metaOf calls' := by
      simp [metaOf]
    have hsnd : (metaOf calls').map Prod.snd =
        calls'.map InternalTxCall.Gas := by
      simp [metaOf]
    have hpr : projectRecords t (metaOf (c0 :: calls')) =
        (projNode t "call_0" "0" c0.Gas (metaOf calls')).1 := by
      rw [projectRecords, hmeta]
      rfl
    rw [hpr, hmap, hsnd, zipWith_gasfun]
    simp [List.map_cons]

def c8call : InternalTxCall := ⟨0, 10, 11, [1], 978796, false⟩

def c8tree : CallStackNode := .mk 0 10 11 [1] [2] 0 890031 []

theorem c8_gas_used_hex_witness :
    (projectRecords c8tree (metaOf [c8call])).map
        (fun r => (r.gas, r.gasUsed)) =
      List.zipWith (fun c g => (intToHex c.Gas, intToHex (c.Gas - g)))
        [c8call] (gasLeftsTree c8tree) ∧
      List.zipWith (fun c g => (intToHex c.Gas, intToHex (c.Gas - g)))
        [c8call] (gasLeftsTree c8tree) = [("0xeef6c", "0x15abd")] :=
  ⟨@c8_gas_used_hex [c8call] [⟨[2], 0, 890031⟩] c8tree ⟨[c8call], []⟩ rfl,
   by decide⟩
